import Mathlib

/-!
# Verification of the MemPointer pointer-aliasing analysis

Shallow embedding of `src/hotspot/share/opto/mempointer.hpp`: the
decomposed form of a pointer expression (`MemPointerDecomposedForm`),
the summands (`MemPointerSummand`), the aliasing comparator
(`get_aliasing_with`), the decomposition parser
(`MemPointerDecomposedFormParser`), and the `MemPointer` facade.

The header file only declares the comparator and parser bodies, and the
arithmetic type `NoOverflowInt` comes from `noOverflowInt.hpp` which is
not part of the excerpt; those parts are modelled from the specification
and marked as such in their doc comments.  Everything else is translated
directly from the header.
-/

/-! ## Bounded-overflow integer -/

/-- Modelled from the spec: `NoOverflowInt` from `opto/noOverflowInt.hpp` is not
part of the excerpt.  The spec describes it as wrapping a fixed-width signed
integer (the width used by the analysis constants is the 32-bit `jint`): any
arithmetic whose mathematical result does not fit, or involving an already
invalid operand, produces a permanently invalid ("NaN") value. -/
inductive NoOverflowInt where
  | NaN : NoOverflowInt
  | val (v : Int) : NoOverflowInt
deriving DecidableEq

/-- Smallest representable `jint` value. -/
def jintMin : Int := -(2 ^ 31)

/-- Largest representable `jint` value. -/
def jintMax : Int := 2 ^ 31 - 1

/-- Construct a `NoOverflowInt` from a mathematical integer: NaN when the
value does not fit the 32-bit width. -/
def NoOverflowInt.make (v : Int) : NoOverflowInt :=
  if jintMin ≤ v ∧ v ≤ jintMax then .val v else .NaN

def NoOverflowInt.is_NaN : NoOverflowInt → Bool
  | .NaN => true
  | .val _ => false

/-- Modelled from the spec: addition propagates NaN and flags overflow. -/
def NoOverflowInt.add : NoOverflowInt → NoOverflowInt → NoOverflowInt
  | .val a, .val b => .make (a + b)
  | _, _ => .NaN

/-- Modelled from the spec: subtraction propagates NaN and flags overflow. -/
def NoOverflowInt.sub : NoOverflowInt → NoOverflowInt → NoOverflowInt
  | .val a, .val b => .make (a - b)
  | _, _ => .NaN

/-- Modelled from the spec: multiplication propagates NaN and flags overflow. -/
def NoOverflowInt.mul : NoOverflowInt → NoOverflowInt → NoOverflowInt
  | .val a, .val b => .make (a * b)
  | _, _ => .NaN

/-- Modelled from the spec: two BOI values compare unequal if either is
invalid. -/
def NoOverflowInt.eq : NoOverflowInt → NoOverflowInt → Bool
  | .val a, .val b => a = b
  | _, _ => false

/-- Modelled from the spec: the zero-check on an invalid value is false. -/
def NoOverflowInt.is_zero : NoOverflowInt → Bool
  | .val a => a = 0
  | .NaN => false

/-- Modelled from the spec: divisibility test used by the SAFE2 policy;
false on invalid operands. -/
def NoOverflowInt.is_multiple_of : NoOverflowInt → NoOverflowInt → Bool
  | .val a, .val b => b ≠ 0 && a % b = 0
  | _, _ => false

/-! ## Expression-graph nodes

The compiler IR (`Node`) is external to the excerpt; the spec describes the
interface the core consumes: a stable term identity with a total order
(`_idx`), the operator kind restricted to literal / add / subtract /
scalar-multiply / left-shift / widening-convert / terminal, and the static
operands.  We embed the pointer-producing expression graph as an inductive
tree; `leaf` is a terminal symbolic value identified by a number. -/

/-- Width of an arithmetic IR operation: `int` (narrow, 32-bit) or `long`
(pointer-width on 64-bit systems). -/
inductive IntW where
  | int : IntW
  | long : IntW
deriving DecidableEq

inductive Node where
  | lit (v : Int) : Node
  | add (w : IntW) (a b : Node) : Node
  | sub (w : IntW) (a b : Node) : Node
  | mulC (w : IntW) (a : Node) (c : Int) : Node
  | lshiftC (w : IntW) (a : Node) (c : Nat) : Node
  | convI2L (a : Node) : Node
  | leaf (idx : Nat) : Node
deriving DecidableEq

/-- Injective numbering of an integer, used to build node indices. -/
def encInt : Int → Nat
  | .ofNat n => 2 * n
  | .negSucc n => 2 * n + 1

def encW : IntW → Nat
  | .int => 0
  | .long => 1

/-- Injective numbering of the nodes, playing the role of the node index
`_idx` that the source uses as the stable, totally ordered term identity. -/
def Node.encode : Node → Nat
  | .lit v => Nat.pair 0 (encInt v)
  | .add w a b => Nat.pair 1 (Nat.pair (encW w) (Nat.pair a.encode b.encode))
  | .sub w a b => Nat.pair 2 (Nat.pair (encW w) (Nat.pair a.encode b.encode))
  | .mulC w a c => Nat.pair 3 (Nat.pair (encW w) (Nat.pair a.encode (encInt c)))
  | .lshiftC w a c => Nat.pair 4 (Nat.pair (encW w) (Nat.pair a.encode c))
  | .convI2L a => Nat.pair 5 a.encode
  | .leaf i => Nat.pair 6 i

/-- The node index, `Node::_idx` in the source. -/
def Node._idx (n : Node) : Nat := n.encode

/-- Structural size of an expression node, the measure for termination of
the decomposition. -/
def Node.size : Node → Nat
  | .lit _ => 1
  | .leaf _ => 1
  | .add _ a b => 1 + a.size + b.size
  | .sub _ a b => 1 + a.size + b.size
  | .mulC _ a _ => 1 + a.size
  | .lshiftC _ a _ => 1 + a.size
  | .convI2L a => 1 + a.size

/-- Operator kinds relevant to the decomposition policy. -/
inductive Opcode where
  | AddL | SubL | MulL | LShiftL
  | AddI | SubI | MulI | LShiftI
  | ConvI2L
  | other
deriving DecidableEq

def Node.opcode : Node → Opcode
  | .add .long _ _ => .AddL
  | .sub .long _ _ => .SubL
  | .mulC .long _ _ => .MulL
  | .lshiftC .long _ _ => .LShiftL
  | .add .int _ _ => .AddI
  | .sub .int _ _ => .SubI
  | .mulC .int _ _ => .MulI
  | .lshiftC .int _ _ => .LShiftI
  | .convI2L _ => .ConvI2L
  | .lit _ => .other
  | .leaf _ => .other

/-! ## MemPointerSummand -/

/-- `summand = scale * variable`; a default-constructed summand is "empty"
(null variable, NaN scale). -/
structure MemPointerSummand where
  _variable : Option Node
  _scale : NoOverflowInt
deriving DecidableEq

/-- The default constructor `MemPointerSummand()`. -/
def MemPointerSummand.empty : MemPointerSummand := ⟨none, .NaN⟩

/-- The assertions of the two-argument constructor
`MemPointerSummand(Node* variable, const NoOverflowInt scale)`:
`_variable != nullptr` and `!_scale.is_zero()`. -/
def MemPointerSummand.ctor_assert (v : Option Node) (scale : NoOverflowInt) : Prop :=
  v ≠ none ∧ scale.is_zero = false

/-- `MemPointerSummand::cmp_for_sort`: empty summands sort last, otherwise
sort by node index. -/
def MemPointerSummand.cmp_for_sort (p1 p2 : MemPointerSummand) : Int :=
  match p1._variable, p2._variable with
  | none, none => 0
  | none, some _ => 1
  | some _, none => -1
  | some a, some b => (a._idx : Int) - (b._idx : Int)

/-- `operator==(MemPointerSummand, MemPointerSummand)`: both null variables
means equal; otherwise the variables must be identical and the scales must
compare equal (NaN scales compare unequal to everything). -/
def MemPointerSummand.eq (a b : MemPointerSummand) : Bool :=
  if a._variable = none && b._variable = none then true
  else if a._variable ≠ b._variable then false
  else NoOverflowInt.eq a._scale b._scale

/-- The sorting order used by the comparator when it sorts summand
sequences: `cmp_for_sort` at most zero. -/
def summandLE (a b : MemPointerSummand) : Prop :=
  MemPointerSummand.cmp_for_sort a b ≤ 0

instance : DecidableRel summandLE :=
  fun a b => inferInstanceAs (Decidable (MemPointerSummand.cmp_for_sort a b ≤ 0))

/-! ## MemPointerAliasing -/

inductive Aliasing where
  | Unknown : Aliasing
  | Always : Aliasing
deriving DecidableEq

structure MemPointerAliasing where
  _aliasing : Aliasing
  _distance : Int
deriving DecidableEq

/-- `const jint max_distance = 1 << 30` from the private constructor of
`MemPointerAliasing`. -/
def max_distance : Int := 2 ^ 30

/-- The construction-time assertion of `MemPointerAliasing`:
`_distance < max_distance && _distance > -max_distance`. -/
def MemPointerAliasing.ctor_assert (distance : Int) : Prop :=
  distance < max_distance ∧ -max_distance < distance

def MemPointerAliasing.make_unknown : MemPointerAliasing := ⟨.Unknown, 0⟩

def MemPointerAliasing.make_always (distance : Int) : MemPointerAliasing :=
  ⟨.Always, distance⟩

/-- `MemPointerAliasing::is_always_at_distance`. -/
def MemPointerAliasing.is_always_at_distance (a : MemPointerAliasing) (distance : Int) : Bool :=
  a._aliasing = Aliasing.Always && a._distance = distance

/-! ## MemPointerDecomposedForm -/

/-- `static const int SUMMANDS_SIZE = 10`. -/
def SUMMANDS_SIZE : Nat := 10

/-- `pointer = con + sum(summands)`.  The C++ object holds a fixed array of
`SUMMANDS_SIZE` summand slots, default-initialized to empty summands; we
keep the slots as a list that construction always fills to length
`SUMMANDS_SIZE`. -/
structure MemPointerDecomposedForm where
  _pointer : Option Node
  _summands : List MemPointerSummand
  _con : NoOverflowInt
deriving DecidableEq

/-- The default / trivial constructor: `pointer = 0 + 1 * pointer`. -/
def MemPointerDecomposedForm.mkTrivial (pointer : Node) : MemPointerDecomposedForm :=
  ⟨some pointer,
   ⟨some pointer, .make 1⟩ :: List.replicate (SUMMANDS_SIZE - 1) MemPointerSummand.empty,
   .make 0⟩

/-- Copying a summand list into the fixed `SUMMANDS_SIZE` slot array whose
unused slots stay default (empty). -/
def padSummands (l : List MemPointerSummand) : List MemPointerSummand :=
  l ++ List.replicate (SUMMANDS_SIZE - l.length) MemPointerSummand.empty

/-- `MemPointerDecomposedForm::make`: fall back to the trivial form when the
summands do not fit the fixed capacity. -/
def MemPointerDecomposedForm.make (pointer : Node) (summands : List MemPointerSummand)
    (con : NoOverflowInt) : MemPointerDecomposedForm :=
  if summands.length ≤ SUMMANDS_SIZE then ⟨some pointer, padSummands summands, con⟩
  else .mkTrivial pointer

def MemPointerDecomposedForm.con (f : MemPointerDecomposedForm) : NoOverflowInt := f._con

/-- The summand slots of a form, sorted by `cmp_for_sort` (term identity,
empty slots last).  Modelled from the spec: the comparator sorts each
form's summands by the total order over term identity. -/
def sortSummands (f : MemPointerDecomposedForm) : List MemPointerSummand :=
  List.insertionSort summandLE f._summands

/-- Pairwise equality of two summand sequences under `operator==`, false
when the counts differ. -/
def summandsAllEqual : List MemPointerSummand → List MemPointerSummand → Bool
  | [], [] => true
  | a :: as, b :: bs => MemPointerSummand.eq a b && summandsAllEqual as bs
  | _, _ => false

/-- Modelled from the spec: the body of
`MemPointerDecomposedForm::get_aliasing_with` is not part of the excerpt.
Per the spec the comparator sorts each form's summands, compares the sorted
sequences for exact pairwise equality (unequal means `Unknown`), and
otherwise computes `distance = other.con - self.con` with bounded-overflow
subtraction, answering `Unknown` when the subtraction is invalid or
`abs(distance)` is not below `2^30`, and `Always(distance)` otherwise. -/
def MemPointerDecomposedForm.get_aliasing_with (self other : MemPointerDecomposedForm) :
    MemPointerAliasing :=
  if summandsAllEqual (sortSummands self) (sortSummands other) then
    match NoOverflowInt.sub other._con self._con with
    | .NaN => .make_unknown
    | .val d => if |d| < max_distance then .make_always d else .make_unknown
  else .make_unknown

/-! ## MemPointerDecomposedFormParser

The bodies of `parse_decomposed_form`, `parse_sub_expression` and
`is_safe_to_decompose_op` are declared in the header but not part of the
excerpt; they are modelled from the spec (section 4.1). -/

/-- Modelled from the spec: `is_safe_to_decompose_op(opc, scale)`.
Pointer-width (long) add / subtract / multiply-by-constant / left-shift
are SAFE1 decompositions; narrow (int) arithmetic and the widening
conversion are SAFE2 decompositions, admissible only when the pointer is
an array access with statically known element size and the current scale
is a multiple of that element size.  `es` is the statically known array
element size in bytes, when available. -/
def is_safe_to_decompose_op (es : Option Int) (opc : Opcode) (scale : NoOverflowInt) : Bool :=
  match opc with
  | .AddL | .SubL | .MulL | .LShiftL => true
  | .AddI | .SubI | .MulI | .LShiftI | .ConvI2L =>
    match es with
    | some sz => scale.is_multiple_of (NoOverflowInt.make sz)
    | none => false
  | .other => false

/-- Modelled from the spec: merging one terminal summand into the output
collection — combine scales if an equal term is already present, and drop
the entry if the (combined) scale becomes a representable zero. -/
def add_to_summands (out : List MemPointerSummand) (t : Node) (scale : NoOverflowInt) :
    List MemPointerSummand :=
  match out with
  | [] => if scale.is_zero then [] else [⟨some t, scale⟩]
  | s :: rest =>
    if s._variable = some t then
      if (NoOverflowInt.add s._scale scale).is_zero then rest
      else ⟨some t, NoOverflowInt.add s._scale scale⟩ :: rest
    else s :: add_to_summands rest t scale

/-- The mutable parsing state of `MemPointerDecomposedFormParser`: the
running constant `_con` and the output collection `_summands`. -/
structure ParserState where
  _con : NoOverflowInt
  _summands : List MemPointerSummand
deriving DecidableEq

/-- Modelled from the spec: the worklist loop of `parse_decomposed_form` /
`parse_sub_expression`.  Pop a summand: fold literals into the running
constant, replace safely decomposable operators by their sub-summands on
the worklist, and merge terminal terms into the output.  The loop is
written with explicit fuel; `parse_terminates` shows the fuel used by
`parse_decomposed_form` is never exhausted. -/
def parseLoop (es : Option Int) : Nat → List MemPointerSummand → ParserState →
    Option ParserState
  | 0, _, _ => none
  | _ + 1, [], st => some st
  | fuel + 1, s :: wl, st =>
    match s._variable with
    | none => parseLoop es fuel wl st
    | some t =>
      let scale := s._scale
      match t with
      | .lit v =>
        parseLoop es fuel wl ⟨st._con.add (scale.mul (.make v)), st._summands⟩
      | .add w a b =>
        if is_safe_to_decompose_op es (Node.add w a b).opcode scale then
          parseLoop es fuel (⟨some a, scale⟩ :: ⟨some b, scale⟩ :: wl) st
        else
          parseLoop es fuel wl ⟨st._con, add_to_summands st._summands t scale⟩
      | .sub w a b =>
        if is_safe_to_decompose_op es (Node.sub w a b).opcode scale then
          parseLoop es fuel
            (⟨some a, scale⟩ :: ⟨some b, scale.mul (.make (-1))⟩ :: wl) st
        else
          parseLoop es fuel wl ⟨st._con, add_to_summands st._summands t scale⟩
      | .mulC w a c =>
        if is_safe_to_decompose_op es (Node.mulC w a c).opcode scale then
          parseLoop es fuel (⟨some a, scale.mul (.make c)⟩ :: wl) st
        else
          parseLoop es fuel wl ⟨st._con, add_to_summands st._summands t scale⟩
      | .lshiftC w a c =>
        if is_safe_to_decompose_op es (Node.lshiftC w a c).opcode scale then
          parseLoop es fuel (⟨some a, scale.mul (.make (2 ^ c))⟩ :: wl) st
        else
          parseLoop es fuel wl ⟨st._con, add_to_summands st._summands t scale⟩
      | .convI2L a =>
        if is_safe_to_decompose_op es (Node.convI2L a).opcode scale then
          parseLoop es fuel (⟨some a, scale⟩ :: wl) st
        else
          parseLoop es fuel wl ⟨st._con, add_to_summands st._summands t scale⟩
      | .leaf i =>
        parseLoop es fuel wl ⟨st._con, add_to_summands st._summands (.leaf i) scale⟩

/-- Weight of one worklist entry for the termination measure. -/
def summandWeight (s : MemPointerSummand) : Nat :=
  match s._variable with
  | none => 1
  | some t => 2 * t.size + 1

/-- Termination measure of the worklist: total weight of its entries. -/
def wlMeasure (wl : List MemPointerSummand) : Nat :=
  wl.foldr (fun s acc => summandWeight s + acc) 0

/-- Fuel that `parse_decomposed_form` hands to the worklist loop for a
given pointer expression. -/
def parseFuel (pointer : Node) : Nat := 2 * pointer.size + 2

/-- Modelled from the spec: the tail of `parse_decomposed_form` — collapse
to the trivial form when the accumulated constant became NaN, and otherwise
build the form through `MemPointerDecomposedForm::make` (which falls back
to the trivial form over capacity); `none` stands for an exhausted fuel
budget, shown impossible by `parse_terminates`. -/
def finish_parse (pointer : Node) : Option ParserState → MemPointerDecomposedForm
  | none => .mkTrivial pointer
  | some st =>
    if st._con.is_NaN then .mkTrivial pointer
    else .make pointer st._summands st._con

/-- Modelled from the spec: `parse_decomposed_form`.  Start from the
trivial summand `1 * pointer` and run the worklist to completion. -/
def parse_decomposed_form (es : Option Int) (pointer : Node) : MemPointerDecomposedForm :=
  finish_parse pointer
    (parseLoop es (parseFuel pointer) [⟨some pointer, .make 1⟩] ⟨.make 0, []⟩)

/-! ## MemPointer facade -/

/-- Kind of a memory access node (`MemNode`). -/
inductive MemKind where
  | store : MemKind
  | load : MemKind
deriving DecidableEq

/-- The slice of the external `MemNode` the core consumes: its kind, its
address expression (`in(MemNode::Address)`), the byte width of the access
(`memory_size()`), and the statically known array element size of its
address type, used by the SAFE2 policy. -/
structure MemNode where
  kind : MemKind
  adr : Node
  memory_size : Int
  ary_elem_size : Option Int
deriving DecidableEq

def MemNode.is_Store (m : MemNode) : Bool := m.kind = MemKind.store

/-- `MemPointer::init_decomposed_form` without its assertion: parse the
address expression of the access. -/
def init_decomposed_form (mem : MemNode) : MemPointerDecomposedForm :=
  parse_decomposed_form mem.ary_elem_size mem.adr

structure MemPointer where
  _mem : MemNode
  _decomposed_form : MemPointerDecomposedForm
deriving DecidableEq

/-- Constructing the facade; `init_decomposed_form` asserts
`mem->is_Store()` ("only stores are supported"), modelled by returning
`none` when the assertion fails. -/
def MemPointer.make (mem : MemNode) : Option MemPointer :=
  if mem.is_Store then some ⟨mem, init_decomposed_form mem⟩ else none

/-- Modelled from the spec: the body of
`MemPointer::is_adjacent_to_and_before` is not part of the excerpt.  Per
the spec's adjacency gloss and worked example, `self` is adjacent to and
before `other` iff the comparator on `(self, other)` — whose distance is
`other.con - self.con`, the pointer difference `other - self` — answers
`Always` at exactly the byte width of `self`'s access. -/
def MemPointer.is_adjacent_to_and_before (self other : MemPointer) : Bool :=
  (self._decomposed_form.get_aliasing_with other._decomposed_form).is_always_at_distance
    self._mem.memory_size

/-! ## Safe decompositions and the MemPointer Lemma

Embedding of the definitions in the header comment of `mempointer.hpp`
(lines 112-147): the value of a decomposition state
`con + sum(scale_i * variable_i)` under a valuation of the terminal
variables, and the SAFE1 / SAFE2 decomposition steps. -/

/-- A decomposition state: the constant and the list of
`(scale, variable)` summands, with exact integer arithmetic. -/
abbrev DecompState := Int × List (Int × Node)

/-- `mp = con + sum_i(scale_i * variable_i)` under a valuation `v` of the
terminal variables. -/
def stateValue (v : Node → Int) (s : DecompState) : Int :=
  s.1 + (s.2.map (fun p => p.1 * v p.2)).sum

/-- The trivial decomposition `pointer = 0 + 1 * pointer`. -/
def trivialState (n : Node) : DecompState := (0, [(1, n)])

/-- One safe decomposition step, from the header comment: SAFE1 preserves
the value for all variable values; SAFE2 changes it by an integer multiple
of `array_element_size_in_bytes * 2^32`. -/
def SafeStep (size : Int) (v : Node → Int) (s t : DecompState) : Prop :=
  stateValue v s = stateValue v t ∨
  ∃ x : Int, stateValue v s = stateValue v t + x * (size * 2 ^ 32)

/-- A chain of safe decomposition steps. -/
def SafeDecomposition (size : Int) (v : Node → Int) : DecompState → DecompState → Prop :=
  Relation.ReflTransGen (SafeStep size v)

/-- The summands stored in a form, as an exact-arithmetic decomposition
state summand list: the non-empty slots with representable scales, in
slot order. -/
def summandsState (f : MemPointerDecomposedForm) : List (Int × Node) :=
  f._summands.filterMap fun s =>
    match s._variable, s._scale with
    | some n, .val k => some (k, n)
    | _, _ => none

/-- A well-formed summand slot: either empty or with a representable
(non-NaN) scale — the invariant the form constructor asserts for stored
summands. -/
def wfSummand (s : MemPointerSummand) : Bool :=
  s._variable = none || !s._scale.is_NaN

/-- A concrete valuation placing the pointer `leaf 1` at address `2^30`
and everything else at `0`, exercising the MemPointer Lemma at the
boundary `abs(con difference) = 2^30`. -/
def vcx : Node → Int := fun n =>
  match n with
  | .leaf 1 => 2 ^ 30
  | _ => 0

/-- A fully decomposed form of the pointer `leaf 1`: constant `2^30`, no
summands. -/
def mp1cx : MemPointerDecomposedForm := .make (.leaf 1) [] (.val (2 ^ 30))

/-- A fully decomposed form of the pointer `leaf 2`: constant `0`, no
summands. -/
def mp2cx : MemPointerDecomposedForm := .make (.leaf 2) [] (.val 0)

instance : IsTotal MemPointerSummand summandLE where
  total a b := by
    unfold summandLE MemPointerSummand.cmp_for_sort
    rcases a with ⟨av, asc⟩
    rcases b with ⟨bv, bsc⟩
    cases av <;> cases bv <;> simp <;> omega

instance : IsTrans MemPointerSummand summandLE where
  trans a b c hab hbc := by
    unfold summandLE MemPointerSummand.cmp_for_sort at hab hbc ⊢
    rcases a with ⟨av, asc⟩
    rcases b with ⟨bv, bsc⟩
    rcases c with ⟨cv, csc⟩
    cases av <;> cases bv <;> cases cv <;> simp_all <;> omega

/-! ## Theorems -/

/-- Helper: a well-formed summand slot compares equal to itself. -/
theorem summand_eq_self_of_wf (s : MemPointerSummand) (h : wfSummand s = true) :
    MemPointerSummand.eq s s = true := by
  rcases s with ⟨sv, sc⟩
  cases sv with
  | none => simp [MemPointerSummand.eq]
  | some t =>
    cases sc with
    | NaN => simp [wfSummand, NoOverflowInt.is_NaN] at h
    | val k => simp [MemPointerSummand.eq, NoOverflowInt.eq]

/-- Helper: pairwise equality of a list of well-formed slots with itself. -/
theorem summandsAllEqual_self (l : List MemPointerSummand)
    (h : ∀ s ∈ l, wfSummand s = true) : summandsAllEqual l l = true := by
  induction l with
  | nil => rfl
  | cons s rest ih =>
    simp only [summandsAllEqual, Bool.and_eq_true]
    exact ⟨summand_eq_self_of_wf s (h s (by simp)), ih fun x hx => h x (by simp [hx])⟩

/-- C5: every verdict the comparator constructs satisfies the
construction-time assertion of `MemPointerAliasing`:
`abs(distance) < 2^30`. -/
theorem aliasing_distance_bound (A B : MemPointerDecomposedForm) :
    MemPointerAliasing.ctor_assert ((A.get_aliasing_with B)._distance) := by
  unfold MemPointerDecomposedForm.get_aliasing_with
  split
  · split
    · simp [MemPointerAliasing.make_unknown, MemPointerAliasing.ctor_assert, max_distance]
    · rename_i d
      split
      · rename_i habs
        have h := abs_lt.mp habs
        simpa [MemPointerAliasing.make_always, MemPointerAliasing.ctor_assert] using
          ⟨h.2, h.1⟩
      · simp [MemPointerAliasing.make_unknown, MemPointerAliasing.ctor_assert, max_distance]
  · simp [MemPointerAliasing.make_unknown, MemPointerAliasing.ctor_assert, max_distance]

/-- C9: constructing the `MemPointer` facade requires the bound memory
access to be a Store node (`init_decomposed_form` asserts
`mem->is_Store()`); binding any non-Store access, such as a Load, fails
the assertion. -/
theorem mempointer_requires_store :
    (∀ mem : MemNode, ((MemPointer.make mem).isSome = true ↔ mem.is_Store = true))
    ∧ ∀ mem : MemNode, mem.kind = MemKind.load → MemPointer.make mem = none := by
  constructor
  · intro mem
    unfold MemPointer.make
    split
    · simp_all
    · simp_all
  · intro mem h
    unfold MemPointer.make
    rw [if_neg]
    simp [MemNode.is_Store, h]

/-- C10: the two-argument summand constructor accepts a non-null variable
with a NaN scale (the zero-check on NaN is false), and the resulting
summand does not compare equal to itself, so summand equality is not
reflexive. -/
theorem summand_eq_not_reflexive (n : Node) :
    MemPointerSummand.ctor_assert (some n) NoOverflowInt.NaN
    ∧ MemPointerSummand.eq ⟨some n, NoOverflowInt.NaN⟩ ⟨some n, NoOverflowInt.NaN⟩ = false := by
  refine ⟨⟨by simp, rfl⟩, ?_⟩
  simp [MemPointerSummand.eq, NoOverflowInt.eq]

/-- C6 (amended): the adjacency predicate is true iff the comparator on
the pair `(self, other)` — not `(other, self)` — answers `Always` at
exactly the byte width of `self`'s access. -/
theorem is_adjacent_iff_always_at_width (self other : MemPointer) :
    self.is_adjacent_to_and_before other = true ↔
      self._decomposed_form.get_aliasing_with other._decomposed_form =
        MemPointerAliasing.make_always self._mem.memory_size := by
  unfold MemPointer.is_adjacent_to_and_before MemPointerAliasing.is_always_at_distance
  rcases h : self._decomposed_form.get_aliasing_with other._decomposed_form with ⟨al, d⟩
  cases al <;> simp [MemPointerAliasing.make_always]

/-- C6 counterexample: two stores of width 4 at constant offsets 16 and 20
from the same base.  `self` ends exactly where `other` begins, and indeed
`is_adjacent_to_and_before` is true; but the comparator on the pair
`(other, self)` answers `Always(-4)`, not `Always(4)`, so the claimed
condition on `(other, self)` is false: the claim equates a true predicate
with a false condition. -/
theorem is_adjacent_pair_order_cx :
    (MemPointer.is_adjacent_to_and_before
        ⟨⟨MemKind.store, Node.leaf 1, 4, none⟩,
         MemPointerDecomposedForm.make (Node.leaf 1)
           [⟨some (Node.leaf 0), NoOverflowInt.val 1⟩] (NoOverflowInt.val 16)⟩
        ⟨⟨MemKind.store, Node.leaf 2, 4, none⟩,
         MemPointerDecomposedForm.make (Node.leaf 2)
           [⟨some (Node.leaf 0), NoOverflowInt.val 1⟩] (NoOverflowInt.val 20)⟩
      = true)
    ∧ ((MemPointerDecomposedForm.make (Node.leaf 2)
           [⟨some (Node.leaf 0), NoOverflowInt.val 1⟩] (NoOverflowInt.val 20)).get_aliasing_with
         (MemPointerDecomposedForm.make (Node.leaf 1)
           [⟨some (Node.leaf 0), NoOverflowInt.val 1⟩] (NoOverflowInt.val 16))
        = MemPointerAliasing.make_always (-4))
    ∧ ((MemPointerDecomposedForm.make (Node.leaf 2)
           [⟨some (Node.leaf 0), NoOverflowInt.val 1⟩] (NoOverflowInt.val 20)).get_aliasing_with
         (MemPointerDecomposedForm.make (Node.leaf 1)
           [⟨some (Node.leaf 0), NoOverflowInt.val 1⟩] (NoOverflowInt.val 16))).is_always_at_distance 4
        = false := by
  refine ⟨by decide, by decide, by decide⟩

/-- C3: over-capacity construction falls back to the trivial form, and
comparing two trivial (degraded) forms yields `Always(0)` when they carry
the identical trivial term and `Unknown` otherwise. -/
theorem capacity_fallback :
    (∀ (p : Node) (l : List MemPointerSummand) (c : NoOverflowInt),
        SUMMANDS_SIZE < l.length →
        MemPointerDecomposedForm.make p l c = MemPointerDecomposedForm.mkTrivial p)
    ∧ ∀ q1 q2 : Node,
        (MemPointerDecomposedForm.mkTrivial q1).get_aliasing_with
            (MemPointerDecomposedForm.mkTrivial q2) =
          if q1 = q2 then MemPointerAliasing.make_always 0
          else MemPointerAliasing.make_unknown := by
  constructor
  · intro p l c h
    unfold MemPointerDecomposedForm.make
    rw [if_neg (by omega)]
  · intro q1 q2
    by_cases h : q1 = q2
    · subst h
      rw [if_pos rfl]
      show MemPointerDecomposedForm.get_aliasing_with _ _ = _
      unfold MemPointerDecomposedForm.get_aliasing_with
      rw [if_pos]
      · rfl
      · apply summandsAllEqual_self
        intro s hs
        have := (List.perm_insertionSort summandLE
          (MemPointerDecomposedForm.mkTrivial q1)._summands).mem_iff.mp hs
        simp only [MemPointerDecomposedForm.mkTrivial, List.mem_cons] at this
        rcases this with h1 | h2
        · subst h1; rfl
        · have := List.eq_of_mem_replicate h2
          subst this; rfl
    · have hcond : summandsAllEqual (sortSummands (MemPointerDecomposedForm.mkTrivial q1))
          (sortSummands (MemPointerDecomposedForm.mkTrivial q2)) = false := by
        apply Bool.eq_false_iff.mpr
        intro hcon
        apply h
        have e1 : sortSummands (MemPointerDecomposedForm.mkTrivial q1) =
            ⟨some q1, NoOverflowInt.make 1⟩ ::
              List.replicate (SUMMANDS_SIZE - 1) MemPointerSummand.empty := rfl
        have e2 : sortSummands (MemPointerDecomposedForm.mkTrivial q2) =
            ⟨some q2, NoOverflowInt.make 1⟩ ::
              List.replicate (SUMMANDS_SIZE - 1) MemPointerSummand.empty := rfl
        rw [e1, e2] at hcon
        simp only [summandsAllEqual, Bool.and_eq_true] at hcon
        have h1 := hcon.1
        simp [MemPointerSummand.eq] at h1
        exact h1.1
      unfold MemPointerDecomposedForm.get_aliasing_with
      simp [hcond, h]

/-- Helper: the comparator's boolean pairwise check agrees with `Forall₂`
over summand equality (which is false on sequences of different counts). -/
theorem summandsAllEqual_iff_forall2 (l1 l2 : List MemPointerSummand) :
    summandsAllEqual l1 l2 = true ↔
      List.Forall₂ (fun a b => MemPointerSummand.eq a b = true) l1 l2 := by
  induction l1 generalizing l2 with
  | nil =>
    cases l2 with
    | nil => simp [summandsAllEqual]
    | cons b bs => simp [summandsAllEqual]
  | cons a as ih =>
    cases l2 with
    | nil => simp [summandsAllEqual]
    | cons b bs =>
      simp only [summandsAllEqual, Bool.and_eq_true, List.forall₂_cons]
      exact and_congr Iff.rfl (ih bs)

/-- C2: the comparator sorts each form's ten summand slots by term
identity with empty slots last; it answers `Unknown` unless the sorted
sequences are pairwise equal, and on equal sequences it computes
`distance = B.con - A.con` with bounded-overflow subtraction, answering
`Unknown` on an invalid subtraction or when `abs(distance)` reaches
`2^30`, and `Always(distance)` otherwise. -/
theorem get_aliasing_with_procedure (A B : MemPointerDecomposedForm) :
    List.Sorted summandLE (sortSummands A)
    ∧ (¬ List.Forall₂ (fun a b => MemPointerSummand.eq a b = true)
          (sortSummands A) (sortSummands B) →
        A.get_aliasing_with B = MemPointerAliasing.make_unknown)
    ∧ (List.Forall₂ (fun a b => MemPointerSummand.eq a b = true)
          (sortSummands A) (sortSummands B) →
        (NoOverflowInt.sub B._con A._con = NoOverflowInt.NaN →
            A.get_aliasing_with B = MemPointerAliasing.make_unknown)
        ∧ ∀ d : Int, NoOverflowInt.sub B._con A._con = NoOverflowInt.val d →
            (max_distance ≤ |d| →
                A.get_aliasing_with B = MemPointerAliasing.make_unknown)
            ∧ (|d| < max_distance →
                A.get_aliasing_with B = MemPointerAliasing.make_always d)) := by
  refine ⟨List.sorted_insertionSort summandLE _, ?_, ?_⟩
  · intro hne
    rw [← summandsAllEqual_iff_forall2] at hne
    unfold MemPointerDecomposedForm.get_aliasing_with
    rw [if_neg hne]
  · intro hfa
    rw [← summandsAllEqual_iff_forall2] at hfa
    unfold MemPointerDecomposedForm.get_aliasing_with
    refine ⟨?_, ?_⟩
    · intro hnan
      rw [if_pos hfa, hnan]
    · intro d hd
      refine ⟨?_, ?_⟩
      · intro hge
        rw [if_pos hfa, hd]
        simp only [if_neg (not_lt.mpr hge)]
      · intro hlt
        rw [if_pos hfa, hd]
        simp only [if_pos hlt]

/-- Helper: the worklist measure of a cons. -/
theorem wlMeasure_cons (s : MemPointerSummand) (l : List MemPointerSummand) :
    wlMeasure (s :: l) = summandWeight s + wlMeasure l := rfl

/-- Helper: every node has positive structural size. -/
theorem Node.size_pos (n : Node) : 1 ≤ n.size := by
  cases n <;> simp [Node.size] <;> omega

/-- Helper: the worklist loop returns a state whenever the fuel exceeds
the worklist measure — each iteration consumes one unit of fuel and
strictly decreases the measure, because a decomposed summand is replaced
by sub-summands over strictly smaller subexpressions. -/
theorem parseLoop_isSome (es : Option Int) :
    ∀ (fuel : Nat) (wl : List MemPointerSummand) (st : ParserState),
      wlMeasure wl < fuel → (parseLoop es fuel wl st).isSome = true := by
  intro fuel
  induction fuel with
  | zero => intro wl st h; exact absurd h (Nat.not_lt_zero _)
  | succ n ih =>
    intro wl st h
    match wl with
    | [] => simp [parseLoop]
    | s :: rest =>
      obtain ⟨sv, ss⟩ := s
      rw [wlMeasure_cons] at h
      cases sv with
      | none =>
        simp only [parseLoop]
        apply ih
        simp only [summandWeight] at h
        omega
      | some t =>
        simp only [summandWeight] at h
        cases t with
        | lit v =>
          simp only [parseLoop]
          apply ih
          simp only [Node.size] at h
          omega
        | add w a b =>
          simp only [parseLoop]
          split
          · apply ih
            simp only [wlMeasure_cons, summandWeight, Node.size] at h ⊢
            omega
          · apply ih
            simp only [Node.size] at h
            omega
        | sub w a b =>
          simp only [parseLoop]
          split
          · apply ih
            simp only [wlMeasure_cons, summandWeight, Node.size] at h ⊢
            omega
          · apply ih
            simp only [Node.size] at h
            omega
        | mulC w a c =>
          simp only [parseLoop]
          split
          · apply ih
            simp only [wlMeasure_cons, summandWeight, Node.size] at h ⊢
            omega
          · apply ih
            simp only [Node.size] at h
            omega
        | lshiftC w a c =>
          simp only [parseLoop]
          split
          · apply ih
            simp only [wlMeasure_cons, summandWeight, Node.size] at h ⊢
            omega
          · apply ih
            simp only [Node.size] at h
            omega
        | convI2L a =>
          simp only [parseLoop]
          split
          · apply ih
            simp only [wlMeasure_cons, summandWeight, Node.size] at h ⊢
            omega
          · apply ih
            simp only [Node.size] at h
            omega
        | leaf i =>
          simp only [parseLoop]
          apply ih
          simp only [Node.size] at h
          omega

/-- C7: for every finite pointer expression, the worklist-driven
decomposition terminates: running the loop of `parse_decomposed_form`
with its fuel (derived from the structural size of the expression) always
produces a final parser state, because every decomposition step replaces
a summand by sub-summands over strictly smaller subexpressions. -/
theorem parse_terminates (es : Option Int) (p : Node) :
    (parseLoop es (parseFuel p) [⟨some p, .make 1⟩] ⟨.make 0, []⟩).isSome = true := by
  apply parseLoop_isSome
  show wlMeasure [⟨some p, .make 1⟩] < 2 * p.size + 2
  simp [wlMeasure, summandWeight]

/-- Helper: merging a terminal summand keeps every stored slot with a
non-zero scale and a present variable. -/
theorem add_to_summands_good (out : List MemPointerSummand) (t : Node) (sc : NoOverflowInt)
    (h : ∀ s ∈ out, s._scale.is_zero = false ∧ s._variable.isSome = true) :
    ∀ s ∈ add_to_summands out t sc,
      s._scale.is_zero = false ∧ s._variable.isSome = true := by
  induction out with
  | nil =>
    intro s hs
    unfold add_to_summands at hs
    split at hs
    · simp at hs
    · rename_i hz
      simp only [List.mem_singleton] at hs
      subst hs
      exact ⟨by simpa using hz, rfl⟩
  | cons hd tl ih =>
    intro s hs
    unfold add_to_summands at hs
    split at hs
    · split at hs
      · exact h s (List.mem_cons_of_mem hd hs)
      · rename_i hz
        rcases List.mem_cons.mp hs with rfl | hmem
        · exact ⟨by simpa using hz, rfl⟩
        · exact h s (List.mem_cons_of_mem hd hmem)
    · rcases List.mem_cons.mp hs with rfl | hmem
      · exact h _ (List.mem_cons_self _ _)
      · exact ih (fun x hx => h x (List.mem_cons_of_mem hd hx)) s hmem

/-- Helper: the worklist loop preserves the stored-summand invariant:
non-zero scales and present variables in the output collection. -/
theorem parseLoop_good (es : Option Int) :
    ∀ (fuel : Nat) (wl : List MemPointerSummand) (st st' : ParserState),
      (∀ s ∈ st._summands, s._scale.is_zero = false ∧ s._variable.isSome = true) →
      parseLoop es fuel wl st = some st' →
      ∀ s ∈ st'._summands, s._scale.is_zero = false ∧ s._variable.isSome = true := by
  intro fuel
  induction fuel with
  | zero => intro wl st st' h hp; simp [parseLoop] at hp
  | succ n ih =>
    intro wl st st' h hp
    match wl with
    | [] =>
      simp only [parseLoop, Option.some.injEq] at hp
      subst hp
      exact h
    | s :: rest =>
      obtain ⟨sv, ss⟩ := s
      cases sv with
      | none => exact ih rest st st' h hp
      | some t =>
        cases t with
        | lit v =>
          simp only [parseLoop] at hp
          exact ih rest ⟨st._con.add (ss.mul (NoOverflowInt.make v)), st._summands⟩ st' h hp
        | add w a b =>
          simp only [parseLoop] at hp
          split at hp
          · exact ih _ st st' h hp
          · exact ih rest _ st' (add_to_summands_good _ _ _ h) hp
        | sub w a b =>
          simp only [parseLoop] at hp
          split at hp
          · exact ih _ st st' h hp
          · exact ih rest _ st' (add_to_summands_good _ _ _ h) hp
        | mulC w a c =>
          simp only [parseLoop] at hp
          split at hp
          · exact ih _ st st' h hp
          · exact ih rest _ st' (add_to_summands_good _ _ _ h) hp
        | lshiftC w a c =>
          simp only [parseLoop] at hp
          split at hp
          · exact ih _ st st' h hp
          · exact ih rest _ st' (add_to_summands_good _ _ _ h) hp
        | convI2L a =>
          simp only [parseLoop] at hp
          split at hp
          · exact ih _ st st' h hp
          · exact ih rest _ st' (add_to_summands_good _ _ _ h) hp
        | leaf i =>
          simp only [parseLoop] at hp
          exact ih rest _ st' (add_to_summands_good _ _ _ h) hp

/-- Helper: a slot of the fixed array built by `padSummands` is a stored
summand or a default empty slot. -/
theorem mem_padSummands (l : List MemPointerSummand) (s : MemPointerSummand)
    (hs : s ∈ padSummands l) : s ∈ l ∨ s = MemPointerSummand.empty := by
  unfold padSummands at hs
  rcases List.mem_append.mp hs with hmem | hrep
  · exact Or.inl hmem
  · exact Or.inr (List.eq_of_mem_replicate hrep)

/-- Helper: a slot of the trivial form is the summand `1 * pointer` or a
default empty slot. -/
theorem mem_mkTrivial (p : Node) (s : MemPointerSummand)
    (hs : s ∈ (MemPointerDecomposedForm.mkTrivial p)._summands) :
    s = ⟨some p, NoOverflowInt.make 1⟩ ∨ s = MemPointerSummand.empty := by
  simp only [MemPointerDecomposedForm.mkTrivial, List.mem_cons] at hs
  rcases hs with h1 | h2
  · exact Or.inl h1
  · exact Or.inr (List.eq_of_mem_replicate h2)

/-- C8: every summand slot of a parsed form that carries a term has a
scale that is not a representable zero (zero-scale contributions are
dropped by the parser's merge step, never stored), and two summands are
equal exactly when both are empty or both carry the same term with scales
that compare equal. -/
theorem summand_invariants (es : Option Int) (p : Node) :
    (∀ s ∈ (parse_decomposed_form es p)._summands,
        s._variable ≠ none → s._scale.is_zero = false)
    ∧ ∀ a b : MemPointerSummand,
        (MemPointerSummand.eq a b = true ↔
          (a._variable = none ∧ b._variable = none) ∨
          (a._variable = b._variable ∧ NoOverflowInt.eq a._scale b._scale = true)) := by
  constructor
  · intro s hs _
    unfold parse_decomposed_form at hs
    rcases hloop : parseLoop es (parseFuel p) [⟨some p, .make 1⟩] ⟨.make 0, []⟩ with _ | st
    · rw [hloop] at hs
      simp only [finish_parse] at hs
      rcases mem_mkTrivial p s hs with rfl | rfl
      · rfl
      · rfl
    · rw [hloop] at hs
      simp only [finish_parse] at hs
      by_cases hnan : st._con.is_NaN = true
      · rw [if_pos hnan] at hs
        rcases mem_mkTrivial p s hs with rfl | rfl
        · rfl
        · rfl
      · rw [if_neg hnan] at hs
        unfold MemPointerDecomposedForm.make at hs
        split at hs
        · rcases mem_padSummands _ _ hs with hmem | rfl
          · exact (parseLoop_good es _ _ _ st (by simp) hloop s hmem).1
          · rfl
        · rcases mem_mkTrivial p s hs with rfl | rfl
          · rfl
          · rfl
  · intro a b
    rcases a with ⟨av, asc⟩
    rcases b with ⟨bv, bsc⟩
    cases av with
    | none =>
      cases bv with
      | none => simp [MemPointerSummand.eq]
      | some tb => simp [MemPointerSummand.eq]
    | some ta =>
      cases bv with
      | none => simp [MemPointerSummand.eq]
      | some tb =>
        by_cases hab : ta = tb
        · subst hab
          simp [MemPointerSummand.eq]
        · simp [MemPointerSummand.eq, hab]

/-- C4: a parsed Decomposed Form never carries an invalid (NaN) constant,
and whenever the accumulated constant of the parse became NaN the
construction collapses to the trivial fallback form
`{term: original pointer, scale: 1, constant: 0}`. -/
theorem parse_con_never_NaN (es : Option Int) (p : Node) :
    (parse_decomposed_form es p)._con.is_NaN = false
    ∧ ∀ st : ParserState,
        parseLoop es (parseFuel p) [⟨some p, .make 1⟩] ⟨.make 0, []⟩ = some st →
        st._con.is_NaN = true →
        parse_decomposed_form es p = MemPointerDecomposedForm.mkTrivial p := by
  constructor
  · unfold parse_decomposed_form
    rcases hloop : parseLoop es (parseFuel p) [⟨some p, .make 1⟩] ⟨.make 0, []⟩ with _ | st
    · show (NoOverflowInt.make 0).is_NaN = false
      decide
    · simp only [finish_parse]
      by_cases hnan : st._con.is_NaN = true
      · rw [if_pos hnan]
        show (NoOverflowInt.make 0).is_NaN = false
        decide
      · rw [if_neg hnan]
        unfold MemPointerDecomposedForm.make
        split
        · simpa using hnan
        · show (NoOverflowInt.make 0).is_NaN = false
          decide
  · intro st hst hnan
    unfold parse_decomposed_form
    rw [hst]
    simp only [finish_parse]
    rw [if_pos hnan]

/-- Helper: the trivial decomposition evaluates to the pointer itself. -/
theorem stateValue_trivial (v : Node → Int) (n : Node) :
    stateValue v (trivialState n) = v n := by
  simp [stateValue, trivialState]

/-- Helper: a chain of safe decomposition steps changes the represented
value by an integer multiple of `size * 2^32` (zero for SAFE1 steps). -/
theorem safeDecomposition_offset {size : Int} {v : Node → Int} {s t : DecompState}
    (h : SafeDecomposition size v s t) :
    ∃ x : Int, stateValue v s = stateValue v t + x * (size * 2 ^ 32) := by
  induction h with
  | refl => exact ⟨0, by ring⟩
  | tail hst hstep ih =>
    obtain ⟨x, hx⟩ := ih
    obtain heq | ⟨y, hy⟩ := hstep
    · exact ⟨x, by rw [hx, heq]⟩
    · exact ⟨x + y, by rw [hx, hy]; ring⟩

/-- C1 (amended, the "MemPointer Lemma" plus the comparator conclusion):
for two pointers `p1 = v n1` and `p2 = v n2` with safe decompositions to
forms `mp1` and `mp2`, if (S1) both lie in bounds of the same memory
object (of size at most `size * 2^31` bytes), (S2) the constants differ
by less than `2^31`, and (S3) the stored summands are identical, then the
true pointer difference equals the decomposed-constant difference; and
`get_aliasing_with` answers `Always` at the true pointer distance under
the comparator's stronger range requirement `abs(con difference) < 2^30`
(with the gap `[2^30, 2^31)` it answers `Unknown`, see the
counterexample). -/
theorem mempointer_lemma
    (size arrSize base : Int) (v : Node → Int) (n1 n2 : Node)
    (mp1 mp2 : MemPointerDecomposedForm) (c1 c2 : Int)
    (hsize : 1 ≤ size)
    (harr : arrSize ≤ size * 2 ^ 31)
    (hcon1 : mp1._con = NoOverflowInt.val c1)
    (hcon2 : mp2._con = NoOverflowInt.val c2)
    (hd1 : SafeDecomposition size v (trivialState n1) (c1, summandsState mp1))
    (hd2 : SafeDecomposition size v (trivialState n2) (c2, summandsState mp2))
    (hb1 : base ≤ v n1) (hb1' : v n1 < base + arrSize)
    (hb2 : base ≤ v n2) (hb2' : v n2 < base + arrSize)
    (hS2 : |c1 - c2| < 2 ^ 31)
    (hS3 : mp1._summands = mp2._summands)
    (hwf : ∀ s ∈ mp1._summands, wfSummand s = true) :
    v n1 - v n2 = c1 - c2 ∧
    (|c2 - c1| < max_distance →
      mp1.get_aliasing_with mp2 = MemPointerAliasing.make_always (v n2 - v n1)) := by
  obtain ⟨x1, hx1⟩ := safeDecomposition_offset hd1
  obtain ⟨x2, hx2⟩ := safeDecomposition_offset hd2
  rw [stateValue_trivial] at hx1 hx2
  have hstates : summandsState mp2 = summandsState mp1 := by
    unfold summandsState
    rw [hS3]
  rw [hstates] at hx2
  have hv1 : v n1 = c1 + (List.map (fun q => q.1 * v q.2) (summandsState mp1)).sum
      + x1 * (size * 2 ^ 32) := by
    simpa [stateValue] using hx1
  have hv2 : v n2 = c2 + (List.map (fun q => q.1 * v q.2) (summandsState mp1)).sum
      + x2 * (size * 2 ^ 32) := by
    simpa [stateValue] using hx2
  have hE : (0 : Int) < size * 2 ^ 32 := by
    have : (0 : Int) < 2 ^ 32 := by positivity
    exact mul_pos (by linarith) this
  have hxeq : x1 = x2 := by
    by_contra hne
    have hx : x1 - x2 ≠ 0 := sub_ne_zero.mpr hne
    have h1 : (1 : Int) ≤ |x1 - x2| := Int.one_le_abs hx
    have hdiff : v n1 - v n2 = (c1 - c2) + (x1 - x2) * (size * 2 ^ 32) := by
      rw [hv1, hv2]
      ring
    have hge : size * 2 ^ 32 ≤ |(x1 - x2) * (size * 2 ^ 32)| := by
      rw [abs_mul, abs_of_pos hE]
      nlinarith
    have hle : |(x1 - x2) * (size * 2 ^ 32)| ≤ |v n1 - v n2| + |c1 - c2| := by
      have hrw : (x1 - x2) * (size * 2 ^ 32) = (v n1 - v n2) - (c1 - c2) := by
        rw [hdiff]
        ring
      rw [hrw]
      exact abs_sub _ _
    have habs : |v n1 - v n2| < arrSize := abs_lt.mpr ⟨by linarith, by linarith⟩
    have h31 : (2 : Int) ^ 31 ≤ size * 2 ^ 31 :=
      le_mul_of_one_le_left (by positivity) hsize
    have hsplit : size * 2 ^ 32 = size * 2 ^ 31 + size * 2 ^ 31 := by ring
    linarith
  have hA : v n1 - v n2 = c1 - c2 := by
    rw [hv1, hv2, hxeq]
    ring
  refine ⟨hA, ?_⟩
  intro hlt
  have hsorteq : sortSummands mp2 = sortSummands mp1 := by
    unfold sortSummands
    rw [hS3]
  have hae : summandsAllEqual (sortSummands mp1) (sortSummands mp2) = true := by
    rw [hsorteq]
    apply summandsAllEqual_self
    intro s hs
    exact hwf s ((List.perm_insertionSort summandLE mp1._summands).mem_iff.mp hs)
  unfold MemPointerDecomposedForm.get_aliasing_with
  rw [if_pos hae, hcon1, hcon2]
  have hsub : NoOverflowInt.sub (NoOverflowInt.val c2) (NoOverflowInt.val c1) =
      NoOverflowInt.val (c2 - c1) := by
    show NoOverflowInt.make (c2 - c1) = NoOverflowInt.val (c2 - c1)
    unfold NoOverflowInt.make
    rw [if_pos]
    obtain ⟨hl, hr⟩ := abs_lt.mp hlt
    unfold max_distance at hl hr
    unfold jintMin jintMax
    constructor
    · nlinarith
    · nlinarith
  rw [hsub]
  show (if |c2 - c1| < max_distance then MemPointerAliasing.make_always (c2 - c1)
      else MemPointerAliasing.make_unknown) = _
  rw [if_pos hlt]
  have hB : v n2 - v n1 = c2 - c1 := by linarith
  rw [hB]

/-- C1 witness: the spec's worked example.  Pointer values 116 and 120 on
an array of element size 4 at base 100, decomposed to constants 16 and 20
over the shared base summand `1 * leaf 0`: the pointer difference equals
the constant difference and the comparator answers `Always(4)`. -/
theorem mempointer_lemma_witness :
    (116 : Int) - 120 = 16 - 20
    ∧ (MemPointerDecomposedForm.make (Node.leaf 1)
          [⟨some (Node.leaf 0), NoOverflowInt.val 1⟩] (NoOverflowInt.val 16)).get_aliasing_with
        (MemPointerDecomposedForm.make (Node.leaf 2)
          [⟨some (Node.leaf 0), NoOverflowInt.val 1⟩] (NoOverflowInt.val 20))
      = MemPointerAliasing.make_always 4 := by
  have h := mempointer_lemma 4 40 100
    (fun n => match n with
      | Node.leaf 0 => (100 : Int)
      | Node.leaf 1 => 116
      | Node.leaf 2 => 120
      | _ => 0)
    (Node.leaf 1) (Node.leaf 2)
    (MemPointerDecomposedForm.make (Node.leaf 1)
      [⟨some (Node.leaf 0), NoOverflowInt.val 1⟩] (NoOverflowInt.val 16))
    (MemPointerDecomposedForm.make (Node.leaf 2)
      [⟨some (Node.leaf 0), NoOverflowInt.val 1⟩] (NoOverflowInt.val 20))
    16 20
    (by decide) (by decide) rfl rfl
    (Relation.ReflTransGen.single (Or.inl (by decide)))
    (Relation.ReflTransGen.single (Or.inl (by decide)))
    (by decide) (by decide) (by decide) (by decide)
    (by decide)
    rfl
    (by decide)
  exact ⟨h.1, h.2 (by decide)⟩

/-- C1 counterexample: all hypotheses of the claim hold as stated — safe
decompositions of the two pointers `2^30` and `0` within one memory
object of `2^30 + 4` bytes (element size 1), identical (empty) summands,
and a constant difference of `2^30`, which satisfies the claim's bound
`abs(mp1.con - mp2.con) < 2^31` — and the pointer difference does equal
the constant difference; yet `get_aliasing_with` answers `Unknown`, not
`Always`, because the comparator requires the strictly stronger bound
`abs(distance) < 2^30`. -/
theorem mempointer_lemma_always_cx :
    ((1 : Int) ≤ 1)
    ∧ ((2 ^ 30 + 4 : Int) ≤ 1 * 2 ^ 31)
    ∧ mp1cx._con = NoOverflowInt.val (2 ^ 30)
    ∧ mp2cx._con = NoOverflowInt.val 0
    ∧ SafeDecomposition 1 vcx (trivialState (Node.leaf 1)) (2 ^ 30, summandsState mp1cx)
    ∧ SafeDecomposition 1 vcx (trivialState (Node.leaf 2)) (0, summandsState mp2cx)
    ∧ ((0 : Int) ≤ vcx (Node.leaf 1) ∧ vcx (Node.leaf 1) < 0 + (2 ^ 30 + 4))
    ∧ ((0 : Int) ≤ vcx (Node.leaf 2) ∧ vcx (Node.leaf 2) < 0 + (2 ^ 30 + 4))
    ∧ |(2 ^ 30 : Int) - 0| < 2 ^ 31
    ∧ mp1cx._summands = mp2cx._summands
    ∧ (∀ s ∈ mp1cx._summands, wfSummand s = true)
    ∧ vcx (Node.leaf 1) - vcx (Node.leaf 2) = 2 ^ 30 - 0
    ∧ mp1cx.get_aliasing_with mp2cx = MemPointerAliasing.make_unknown := by
  refine ⟨by decide, by decide, rfl, rfl,
    Relation.ReflTransGen.single (Or.inl (by decide)),
    Relation.ReflTransGen.single (Or.inl (by decide)),
    by decide, by decide, by decide, rfl, by decide, by decide, by decide⟩
